import Mathlib

/-!
Verification of the `implicit-clone` containers (`IArray`, `IMap`, `IString`)
against their natural-language specification.

The Rust containers are embedded shallowly:

* `IArray<T>` (src/array.rs) is a three-variant sum: a static slice, a
  reference-counted slice, or a single inline element.  For value-level
  claims the two slice-carrying variants hold the buffer contents as a
  `List`.  For the copy-on-write claims, where reference counts are
  observable, a second handle/store model (`HArray`) makes the `Rc`
  allocation explicit: the handle stores an address into a store of
  buffers and the reference count of an address is the number of live
  handles that carry it.
* `IMap<K, V>` (src/map.rs) is a two-variant sum: a static slice of pairs
  or a reference-counted IndexMap, the latter embedded as its ordered
  entry list (insertion order, unique keys).
* `IString` (src/string.rs) is a static or reference-counted string,
  embedded as a list of characters.

Rust iterators are embedded as the sequence of elements they will yield
together with their declared size hint, which is all `FromIterator for
IArray` observes about them.
-/

set_option maxHeartbeats 1000000
set_option synthInstance.maxSize 2000
set_option synthInstance.maxHeartbeats 400000

namespace ImplicitClone

/-- Embedding of `IArray<T>` (src/array.rs lines 31-39): `Static(&'static [T])`,
`Rc(Rc<[T]>)` where the payload is the contents of the backing buffer, and
`Single([T; 1])` holding the unique element. -/
inductive IArray (T : Type) where
  | Static : List T → IArray T
  | Rc : List T → IArray T
  | Single : T → IArray T
deriving DecidableEq

namespace IArray

/-- `IArray::EMPTY` (src/array.rs line 160): the static empty slice. -/
def EMPTY {T : Type} : IArray T := IArray.Static []

/-- `IArray::len` (src/array.rs lines 196-202). -/
def len {T : Type} : IArray T → Nat
  | .Static a => a.length
  | .Rc a => a.length
  | .Single _ => 1

/-- `IArray::as_slice` (src/array.rs lines 238-244): the logical contents,
independent of the variant. -/
def as_slice {T : Type} : IArray T → List T
  | .Static a => a
  | .Rc a => a
  | .Single x => [x]

/-- `IArray::get` (src/array.rs lines 257-264): clone of the element at the
index, or `None` when out of bounds. -/
def get {T : Type} : IArray T → Nat → Option T
  | .Static a, index => a.get? index
  | .Rc a, index => a.get? index
  | .Single x, index => if index = 0 then some x else none

/-- The `#[derive(PartialEq)]` equality of `IArray` (src/array.rs line 31):
the derived implementation first compares the discriminants, so values in
different variants are never equal, and otherwise compares the payloads
(slice contents for `Static`/`Rc`, the element for `Single`). -/
def beq {T : Type} [DecidableEq T] : IArray T → IArray T → Bool
  | .Static a, .Static b => decide (a = b)
  | .Rc a, .Rc b => decide (a = b)
  | .Single a, .Single b => decide (a = b)
  | _, _ => false

end IArray

/-- A Rust iterator as observed by `FromIterator for IArray`: the sequence of
elements it will yield, and the `(lower, upper)` size hint it declares. -/
structure RIter (T : Type) where
  elems : List T
  lower : Nat
  upper : Option Nat

/-- An iterator's declared upper bound is honest when it really bounds the
number of elements the iterator yields. -/
def RIter.honest {T : Type} (it : RIter T) : Prop :=
  match it.upper with
  | some u => it.elems.length ≤ u
  | none => True

/-- `FromIterator for IArray` (src/array.rs lines 68-83): match on the size
hint; upper bound 0 gives `EMPTY`, upper bound 1 takes at most one element
(`it.next()`) and discards the iterator, anything else drains the whole
iterator into an `Rc` buffer. -/
def IArray.from_iter {T : Type} (it : RIter T) : IArray T :=
  match it.upper with
  | some 0 => IArray.EMPTY
  | some 1 =>
    match it.elems with
    | e :: _ => IArray.Single e
    | [] => IArray.EMPTY
  | _ => IArray.Rc it.elems

/-- Embedding of `IMap<K, V>` (src/map.rs lines 23-29): a static slice of
key-value pairs, or a reference-counted `IndexMap` represented by its ordered
entry list. -/
inductive IMap (K V : Type) where
  | Static : List (K × V) → IMap K V
  | Rc : List (K × V) → IMap K V
deriving DecidableEq

/-- Lookup in an ordered entry list by key, first match wins; this is
`IndexMap::get` on the map's entries-in-order. -/
def lookupEntries {K V : Type} [DecidableEq K] (key : K) : List (K × V) → Option V
  | [] => none
  | p :: rest => if p.1 = key then some p.2 else lookupEntries key rest

/-- `IndexMap::insert` as it acts on the ordered entry list: an existing key
keeps its position and gets the new value, a new key is appended. -/
def insertEntry {K V : Type} [DecidableEq K] (m : List (K × V)) (kv : K × V) :
    List (K × V) :=
  if (m.map Prod.fst).contains kv.1 then
    m.map (fun p => if p.1 = kv.1 then (p.1, kv.2) else p)
  else
    m ++ [kv]

/-- `IndexMap`'s `FromIterator` on the entry-list representation: repeated
`insert` starting from the empty map. -/
def mkIndexMap {K V : Type} [DecidableEq K] (pairs : List (K × V)) : List (K × V) :=
  pairs.foldl insertEntry []

namespace IMap

/-- `FromIterator for IMap` (src/map.rs lines 64-71): drain the pairs into an
`IndexMap` and wrap it in the `Rc` variant, unconditionally. -/
def from_iter {K V : Type} [DecidableEq K] (pairs : List (K × V)) : IMap K V :=
  IMap.Rc (mkIndexMap pairs)

/-- `IMap::iter` (src/map.rs lines 105-110): iteration yields the pairs in
order for either variant. -/
def iterList {K V : Type} : IMap K V → List (K × V)
  | .Static a => a
  | .Rc a => a

/-- `IMap::len` (src/map.rs lines 134-139). -/
def len {K V : Type} : IMap K V → Nat
  | .Static a => a.length
  | .Rc a => a.length

/-- `IMap::get` (src/map.rs lines 157-169): linear scan for the `Static`
variant, `IndexMap::get` for the `Rc` variant. -/
def get {K V : Type} [DecidableEq K] (m : IMap K V) (key : K) : Option V :=
  match m with
  | .Static a => lookupEntries key a
  | .Rc a => lookupEntries key a

/-- `IMap::get_key_value` (src/map.rs lines 176-185): clone of the matching
pair, if any. -/
def get_key_value {K V : Type} [DecidableEq K] (m : IMap K V) (key : K) :
    Option (K × V) :=
  match m with
  | .Static a => a.find? (fun p => decide (p.1 = key))
  | .Rc a => a.find? (fun p => decide (p.1 = key))

/-- Index-and-pair lookup on an entry list, used for `get_full`/`get_index_of`. -/
def findFull {K V : Type} [DecidableEq K] (key : K) :
    List (K × V) → Nat → Option (Nat × K × V)
  | [], _ => none
  | p :: rest, i => if p.1 = key then some (i, p.1, p.2) else findFull key rest (i + 1)

/-- `IMap::get_full` (src/map.rs lines 189-201): index, key and value of the
matching entry. -/
def get_full {K V : Type} [DecidableEq K] (m : IMap K V) (key : K) :
    Option (Nat × K × V) :=
  match m with
  | .Static a => findFull key a 0
  | .Rc a => findFull key a 0

/-- `IMap::get_index` (src/map.rs lines 209-214): the pair at a position. -/
def get_index {K V : Type} (m : IMap K V) (index : Nat) : Option (K × V) :=
  match m with
  | .Static a => a.get? index
  | .Rc a => a.get? index

/-- `IMap::get_index_of` (src/map.rs lines 220-232): the position of the key. -/
def get_index_of {K V : Type} [DecidableEq K] (m : IMap K V) (key : K) : Option Nat :=
  (get_full m key).map (·.1)

/-- `IMap::contains_key` (src/map.rs lines 238-247). -/
def contains_key {K V : Type} [DecidableEq K] (m : IMap K V) (key : K) : Bool :=
  match m with
  | .Static a => a.any (fun p => decide (p.1 = key))
  | .Rc a => a.any (fun p => decide (p.1 = key))

/-- `IMap::last` (src/map.rs lines 253-258). -/
def last {K V : Type} (m : IMap K V) : Option (K × V) :=
  match m with
  | .Static a => a.getLast?
  | .Rc a => a.getLast?

/-- The `#[derive(PartialEq)]` equality of `IMap` (src/map.rs line 23): the
derived implementation compares the discriminants first, so values in
different variants are never equal; two `Static` maps compare their slices,
two `Rc` maps compare via `IndexMap`'s equality (same length and every entry
of one is mapped identically by the other). -/
def beq {K V : Type} [DecidableEq K] [DecidableEq V] : IMap K V → IMap K V → Bool
  | .Static a, .Static b => decide (a = b)
  | .Rc a, .Rc b =>
    decide (a.length = b.length) &&
      a.all (fun p => decide (lookupEntries p.1 b = some p.2))
  | _, _ => false

end IMap

/-! ### C1: representation-independent equality -/

/-- C1: the claim states that `==` between two `IArray`s (resp. `IMap`s) with
identical element sequences (resp. ordered pairs) is `true` regardless of the
storage variant of each side, and in particular that `IArray::Static(&[1,2,3])`
compares equal to the `IArray` collected from an iterator over `[1,2,3]`.
The code violates this: both `IArray` and `IMap` derive `PartialEq`, which
compares the variant discriminants first, so the collected array (an `Rc`
variant, since the hint is `(3, Some(3))`) compares UNEQUAL to the `Static`
literal with the same elements, and likewise a `Static` map compares unequal
to the `Rc` map holding the same ordered pairs.  This theorem evaluates the
code at those failing inputs. -/
theorem c1_derived_eq_is_variant_sensitive :
    IArray.beq (IArray.Static [1, 2, 3])
      (IArray.from_iter ⟨[1, 2, 3], 3, some 3⟩) = false ∧
    (IArray.from_iter ⟨[1, 2, 3], 3, some 3⟩ : IArray Nat).as_slice =
      (IArray.Static [1, 2, 3]).as_slice ∧
    IMap.beq (IMap.Static [(1, 10), (2, 20)])
      (IMap.from_iter [(1, 10), (2, 20)]) = false ∧
    (IMap.from_iter [(1, 10), (2, 20)] : IMap Nat Nat).iterList =
      (IMap.Static [(1, 10), (2, 20)]).iterList := by
  refine ⟨rfl, rfl, rfl, rfl⟩

/-! ### C2: from_iter preserves the drained sequence -/

/-- C2 counterexample: the claim quantifies over every iterator, "including one
whose declared size hint is wrong (e.g. an upper bound of 0 or 1 while the
iterator actually yields more elements)".  For the iterator that yields
`[1, 2]` but declares the hint `(0, Some(1))`, `from_iter` takes one element
via `it.next()` and discards the rest, so the collected container holds `[1]`,
not `[1, 2]`: an element is lost. -/
theorem c2_lying_hint_loses_elements :
    ¬ ((IArray.from_iter ⟨[1, 2], 0, some 1⟩ : IArray Nat).as_slice = [1, 2]) := by
  decide

/-- C2 (amended): for every iterator whose declared upper-bound size hint is
honest (the upper bound, when present, really bounds the number of elements
yielded), collecting into an `IArray` via `from_iter` produces a container
whose element sequence, in order, equals exactly the sequence the iterator
produces — no element is lost or added. -/
theorem c2_from_iter_preserves_elems_of_honest_iter (T : Type) (it : RIter T)
    (h : it.honest) : (IArray.from_iter it).as_slice = it.elems := by
  unfold RIter.honest at h
  unfold IArray.from_iter
  rcases hu : it.upper with _ | u
  · simp [IArray.as_slice]
  · rw [hu] at h
    rcases u with _ | u
    · have : it.elems = [] := List.length_eq_zero.mp (Nat.le_zero.mp h)
      simp [this, IArray.EMPTY, IArray.as_slice]
    · rcases u with _ | u
      · rcases he : it.elems with _ | ⟨e, rest⟩
        · simp [IArray.EMPTY, IArray.as_slice]
        · rw [he] at h
          simp only [List.length_cons, Nat.succ_le_succ_iff, Nat.le_zero] at h
          have : rest = [] := List.length_eq_zero.mp h
          simp [this, IArray.as_slice]
      · simp [IArray.as_slice]

/-- Witness for C2: the honest iterator over `[4, 5]` declaring hint
`(2, Some(2))` collects to a container holding exactly `[4, 5]`. -/
theorem c2_witness :
    (IArray.from_iter ⟨[4, 5], 2, some 2⟩ : IArray Nat).as_slice = [4, 5] :=
  c2_from_iter_preserves_elems_of_honest_iter Nat ⟨[4, 5], 2, some 2⟩
    (by unfold RIter.honest; decide)

/-! ### C3: the construction heuristic's three cases -/

/-- C3 counterexample: the claim states that every iterator yielding no
elements collects to a container that compares equal (`==`) to
`IArray::EMPTY`.  An empty iterator declaring the hint `(0, None)` falls into
the catch-all branch of `from_iter` and collects to the `Rc` variant holding
no elements, which the derived variant-sensitive `PartialEq` reports as
UNEQUAL to `EMPTY` (the `Static` variant). -/
theorem c3_empty_rc_not_eq_to_EMPTY :
    IArray.beq (IArray.from_iter ⟨([] : List Nat), 0, none⟩) IArray.EMPTY = false := by
  decide

/-- C3 (amended): for every iterator whose declared upper-bound size hint is
honest: if it yields no elements, the result has the same (empty) element
sequence as `IArray::EMPTY`, and compares equal (`==`) to `EMPTY` exactly when
the declared upper bound was 0 or 1; if it yields exactly one element, the
result has length 1 and the same element sequence as the container built
directly from that one element (`Single`), and compares equal (`==`) to it
exactly when the declared upper bound was 1; if it yields two or more
elements, the result's elements, in order, equal the drained sequence. -/
theorem c3_from_iter_heuristic_cases (T : Type) [DecidableEq T] (it : RIter T)
    (h : it.honest) :
    (it.elems = [] →
      (IArray.from_iter it).as_slice = (IArray.EMPTY : IArray T).as_slice ∧
      (IArray.beq (IArray.from_iter it) IArray.EMPTY = true ↔
        it.upper = some 0 ∨ it.upper = some 1)) ∧
    (∀ e : T, it.elems = [e] →
      (IArray.from_iter it).len = 1 ∧
      (IArray.from_iter it).as_slice = (IArray.Single e).as_slice ∧
      (IArray.beq (IArray.from_iter it) (IArray.Single e) = true ↔
        it.upper = some 1)) ∧
    (2 ≤ it.elems.length → (IArray.from_iter it).as_slice = it.elems) := by
  unfold RIter.honest at h
  refine ⟨?_, ?_, ?_⟩
  · intro he
    unfold IArray.from_iter
    rcases hu : it.upper with _ | u
    · simp [he, IArray.as_slice, IArray.EMPTY, IArray.beq]
    · rcases u with _ | u
      · simp [IArray.EMPTY, IArray.as_slice, IArray.beq]
      · rcases u with _ | u
        · simp [he, IArray.EMPTY, IArray.as_slice, IArray.beq]
        · simp [he, IArray.EMPTY, IArray.as_slice, IArray.beq]
  · intro e he
    unfold IArray.from_iter
    rcases hu : it.upper with _ | u
    · simp [he, IArray.as_slice, IArray.len, IArray.beq]
    · rw [hu, he] at h
      rcases u with _ | u
      · simp at h
      · rcases u with _ | u
        · simp [he, IArray.as_slice, IArray.len, IArray.beq]
        · simp [he, IArray.as_slice, IArray.len, IArray.beq]
  · intro h2
    unfold IArray.from_iter
    rcases hu : it.upper with _ | u
    · simp [IArray.as_slice]
    · rw [hu] at h
      rcases u with _ | u
      · omega
      · rcases u with _ | u
        · omega
        · simp [IArray.as_slice]

/-- Witness for C3: instantiating the heuristic cases at the honest
single-element iterator over `[7]` with hint `(1, Some(1))`: the collected
container has length 1 and equals `Single 7`. -/
theorem c3_witness :
    (IArray.from_iter ⟨[7], 1, some 1⟩ : IArray Nat).len = 1 ∧
    IArray.beq (IArray.from_iter ⟨[7], 1, some 1⟩) (IArray.Single 7) = true :=
  ⟨((c3_from_iter_heuristic_cases Nat ⟨[7], 1, some 1⟩
      (by unfold RIter.honest; decide)).2.1 7 rfl).1,
   (((c3_from_iter_heuristic_cases Nat ⟨[7], 1, some 1⟩
      (by unfold RIter.honest; decide)).2.1 7 rfl).2.2).mpr rfl⟩

/-! ### C8: double-ended iteration -/

/-- The iterator over an `IArray` (src/array.rs lines 117-133): the array
itself plus the two cursors, created with `left = 0`, `right = len`. -/
structure Iter (T : Type) where
  array : IArray T
  left : Nat
  right : Nat

/-- `Iter::new` (src/array.rs lines 126-132). -/
def Iter.new {T : Type} (array : IArray T) : Iter T :=
  ⟨array, 0, array.len⟩

/-- `Iterator::next for Iter` (src/array.rs lines 138-145): `None` once the
cursors meet, otherwise the element at `left`, advancing `left`. -/
def Iter.next {T : Type} (it : Iter T) : Option T × Iter T :=
  if it.right ≤ it.left then (none, it)
  else (it.array.get it.left, { it with left := it.left + 1 })

/-- `DoubleEndedIterator::next_back for Iter` (src/array.rs lines 149-155):
`None` once the cursors meet, otherwise the element before `right`,
retreating `right`. -/
def Iter.next_back {T : Type} (it : Iter T) : Option T × Iter T :=
  if it.right ≤ it.left then (none, it)
  else (it.array.get (it.right - 1), { it with right := it.right - 1 })

/-- Pull from an iterator following a schedule of directions (`true` = front
pull via `next`, `false` = back pull via `next_back`), recording the results. -/
def pullSeq {T : Type} : List Bool → Iter T → List (Option T)
  | [], _ => []
  | d :: ds, it =>
    let r := if d then it.next else it.next_back
    r.1 :: pullSeq ds r.2

/-- Repeated front pulls (up to the fuel) until the iterator reports the end. -/
def drainFront {T : Type} : Nat → Iter T → List T
  | 0, _ => []
  | n + 1, it =>
    match it.next with
    | (some x, it') => x :: drainFront n it'
    | (none, _) => []

/-- Repeated back pulls (up to the fuel) until the iterator reports the end. -/
def drainBack {T : Type} : Nat → Iter T → List T
  | 0, _ => []
  | n + 1, it =>
    match it.next_back with
    | (some x, it') => x :: drainBack n it'
    | (none, _) => []

theorem IArray.len_eq_length_as_slice {T : Type} (a : IArray T) :
    a.len = a.as_slice.length := by
  cases a <;> rfl

theorem IArray.get_eq_as_slice_get? {T : Type} (a : IArray T) (i : Nat) :
    a.get i = a.as_slice.get? i := by
  cases a with
  | Static l => rfl
  | Rc l => rfl
  | Single x =>
    rcases i with _ | i <;> simp [IArray.get, IArray.as_slice]

theorem drainFront_spec {T : Type} (n : Nat) (it : Iter T)
    (hr : it.right = it.array.as_slice.length) (hn : it.right - it.left ≤ n) :
    drainFront n it = it.array.as_slice.drop it.left := by
  induction n generalizing it with
  | zero =>
    have : it.array.as_slice.length ≤ it.left := by omega
    simp [drainFront, List.drop_eq_nil_of_le this]
  | succ n ih =>
    by_cases hle : it.right ≤ it.left
    · have h1 : it.array.as_slice.length ≤ it.left := by omega
      simp [drainFront, Iter.next, hle, List.drop_eq_nil_of_le h1]
    · have hlt : it.left < it.array.as_slice.length := by omega
      have hget : it.array.get it.left = some (it.array.as_slice.get ⟨it.left, hlt⟩) := by
        rw [IArray.get_eq_as_slice_get?, List.get?_eq_get hlt]
      simp only [drainFront, Iter.next, if_neg hle, hget]
      rw [ih { it with left := it.left + 1 }
        (show it.right = it.array.as_slice.length from hr)
        (show it.right - (it.left + 1) ≤ n by omega)]
      rw [List.drop_eq_getElem_cons hlt]
      simp [List.get_eq_getElem]

theorem drainBack_spec {T : Type} (n : Nat) (it : Iter T)
    (hl : it.left = 0) (hr : it.right ≤ it.array.as_slice.length)
    (hn : it.right ≤ n) :
    drainBack n it = (it.array.as_slice.take it.right).reverse := by
  induction n generalizing it with
  | zero =>
    have : it.right = 0 := by omega
    simp [drainBack, this]
  | succ n ih =>
    by_cases hle : it.right ≤ it.left
    · have h0 : it.right = 0 := by omega
      simp [drainBack, Iter.next_back, hle, h0]
    · have hlt : it.right - 1 < it.array.as_slice.length := by omega
      have hget : it.array.get (it.right - 1) =
          some (it.array.as_slice.get ⟨it.right - 1, hlt⟩) := by
        rw [IArray.get_eq_as_slice_get?, List.get?_eq_get hlt]
      simp only [drainBack, Iter.next_back, if_neg hle, hget]
      rw [ih { it with right := it.right - 1 }
        (show it.left = 0 from hl)
        (show it.right - 1 ≤ it.array.as_slice.length by omega)
        (show it.right - 1 ≤ n by omega)]
      have hsucc : it.right = (it.right - 1) + 1 := by omega
      show it.array.as_slice.get ⟨it.right - 1, hlt⟩ ::
          (it.array.as_slice.take (it.right - 1)).reverse =
        (it.array.as_slice.take it.right).reverse
      conv_rhs => rw [hsucc]
      rw [List.take_succ, List.reverse_append, List.getElem?_eq_getElem hlt]
      simp only [Option.toList_some, List.reverse_singleton, List.singleton_append,
        List.get_eq_getElem]

/-- C8: the `IArray` iterator is double-ended and both ends are consistent.
For `[1,2,3,4,5,6]`, pulling front, back, back, front, front, front yields
`1, 6, 5, 2, 3, 4`, after which both `next` and `next_back` return `None`;
in general once the cursors meet both directions return `None` and leave the
iterator unchanged (hence `None` forever), a full front drain yields the
elements in index order, and a full back drain yields them in reverse index
order. -/
theorem c8_double_ended_iteration :
    (pullSeq [true, false, false, true, true, true, true, false]
        (Iter.new (IArray.Static [1, 2, 3, 4, 5, 6])) =
      [some 1, some 6, some 5, some 2, some 3, some 4, none, none]) ∧
    (∀ (T : Type) (it : Iter T), it.right ≤ it.left →
      it.next = (none, it) ∧ it.next_back = (none, it)) ∧
    (∀ (T : Type) (a : IArray T), drainFront a.len (Iter.new a) = a.as_slice) ∧
    (∀ (T : Type) (a : IArray T),
      drainBack a.len (Iter.new a) = a.as_slice.reverse) := by
  refine ⟨by decide, ?_, ?_, ?_⟩
  · intro T it h
    constructor <;> simp [Iter.next, Iter.next_back, h]
  · intro T a
    rw [drainFront_spec a.len (Iter.new a) (by simp [Iter.new, a.len_eq_length_as_slice])
      (by simp [Iter.new])]
    simp [Iter.new]
  · intro T a
    rw [drainBack_spec a.len (Iter.new a) rfl (by simp [Iter.new, a.len_eq_length_as_slice])
      (by simp [Iter.new])]
    simp [Iter.new, a.len_eq_length_as_slice]

/-! ### Handle/store model for the copy-on-write claims

For `make_mut`/`get_mut` (C4, C5) the reference count of an `Rc` buffer is
observable, so the `Rc` allocation is made explicit: a store is the list of
heap buffers, an `Rc` handle carries the address (index) of its buffer, and
the reference count of an address is the number of live handles carrying it.
`Clone for IArray` (src/array.rs lines 52-60) copies the handle: a `Static`
stays the same reference, an `Rc` is the same address (one more live handle,
i.e. `Rc::clone`), a `Single` duplicates its inline element. -/

/-- An `IArray<T>` handle with the `Rc` allocation explicit: `Rc i` points at
buffer `i` of the store. -/
inductive HArray (T : Type) where
  | Static : List T → HArray T
  | Rc : Nat → HArray T
  | Single : T → HArray T

/-- The contents of a handle, read through the store (src/array.rs
`as_slice`, lines 238-244). -/
def HArray.as_slice {T : Type} (st : List (List T)) : HArray T → List T
  | .Static s => s
  | .Rc i => st.getD i []
  | .Single x => [x]

/-- `Clone for IArray` on handles: the clone observes the same contents and,
for `Rc`, shares the same address. -/
def HArray.clone {T : Type} : HArray T → HArray T
  | .Static s => .Static s
  | .Rc i => .Rc i
  | .Single x => .Single x

/-- A handle is valid when its `Rc` address points into the store. -/
def HArray.valid {T : Type} : HArray T → List (List T) → Prop
  | .Rc i, st => i < st.length
  | _, _ => True

/-- How many of the live handles `hs` share address `i`: together with the
handle under mutation this is `Rc::strong_count` of buffer `i`. -/
def rcCount {T : Type} (i : Nat) (hs : List (HArray T)) : Nat :=
  hs.countP (fun h =>
    match h with
    | .Rc j => decide (j = i)
    | _ => false)

/-- Where the mutable slice returned by `make_mut`/`get_mut` points. -/
inductive MutTarget where
  | addr : Nat → MutTarget
  | inline : MutTarget

/-- `IArray::make_mut` (src/array.rs lines 361-382), with `others` the other
live handles.  An `Rc` with no other reference is handed out in place
(`Rc::get_mut` succeeds); an `Rc` with another holder first clones its
elements into a fresh buffer (`rc.iter().cloned().collect()`) and retargets
the handle there; a `Static` clones its elements into a fresh `Rc` buffer and
becomes that `Rc`; a `Single` hands out its inline array directly.  Returns
the updated handle, the updated store, and where the mutable slice points. -/
def HArray.make_mut {T : Type} (h : HArray T) (others : List (HArray T))
    (st : List (List T)) : HArray T × List (List T) × MutTarget :=
  match h with
  | .Rc i =>
    if rcCount i others = 0 then (.Rc i, st, .addr i)
    else (.Rc st.length, st ++ [st.getD i []], .addr st.length)
  | .Static s => (.Rc st.length, st ++ [s], .addr st.length)
  | .Single x => (.Single x, st, .inline)

/-- Writing element `j` of the mutable slice obtained from
`make_mut`/`get_mut`: a heap target updates the buffer at its address, the
inline target replaces the single element (its only slot is index 0). -/
def writeSlice {T : Type} (tgt : MutTarget) (j : Nat) (v : T) (h : HArray T)
    (st : List (List T)) : HArray T × List (List T) :=
  match tgt with
  | .addr i => (h, st.set i ((st.getD i []).set j v))
  | .inline =>
    match h with
    | .Single x => (.Single (if j = 0 then v else x), st)
    | other => (other, st)

/-- `IArray::get_mut` (src/array.rs lines 295-301) combined with a write of
element `j` through the returned slice: `Rc::get_mut` succeeds only with no
other live reference (then the buffer is updated in place), `Static` returns
`None`, `Single` always hands out its inline array. -/
def HArray.get_mut_write {T : Type} (h : HArray T) (others : List (HArray T))
    (st : List (List T)) (j : Nat) (v : T) :
    Option (HArray T × List (List T)) :=
  match h with
  | .Rc i =>
    if rcCount i others = 0 then
      some (.Rc i, st.set i ((st.getD i []).set j v))
    else none
  | .Static _ => none
  | .Single x => some (.Single (if j = 0 then v else x), st)

/-! ### C4: copy-on-write isolation -/

theorem getD_set_append_of_lt {T : Type} (st : List (List T)) (c b : List T)
    (i : Nat) (hi : i < st.length) :
    ((st ++ [c]).set st.length b).getD i [] = st.getD i [] := by
  have h1 : st.length ≠ i := by omega
  rw [List.getD_eq_getElem?_getD, List.getD_eq_getElem?_getD,
    List.getElem?_set_ne h1, List.getElem?_append_left hi]

/-- C4: copy-on-write isolation.  For every store, every `IArray` handle `a`
of any variant (valid in the store), after taking a clone `b` of `a` and then
mutating `a` through the slice returned by `make_mut` (writing any value `v`
at any slot `j`), the observable content of `b` — its element sequence seen
through `as_slice` — is unchanged from before the mutation: a shared `Rc`
buffer is never written in place while the clone holds it, a `Static` slice
is never written at all, and a `Single` clone owns its own inline element. -/
theorem c4_make_mut_isolates_clones (T : Type) (st : List (List T))
    (a : HArray T) (j : Nat) (v : T) (hv : a.valid st) :
    HArray.as_slice
        (writeSlice (a.make_mut [a.clone] st).2.2 j v
          (a.make_mut [a.clone] st).1 (a.make_mut [a.clone] st).2.1).2
        a.clone =
      HArray.as_slice st a.clone := by
  cases a with
  | Static s => rfl
  | Single x => rfl
  | Rc i =>
    have hcount : rcCount i [HArray.Rc (T := T) i] ≠ 0 := by
      simp [rcCount, List.countP_cons, List.countP_nil]
    unfold HArray.valid at hv
    simp only [HArray.make_mut, HArray.clone, if_neg hcount, writeSlice,
      HArray.as_slice]
    exact getD_set_append_of_lt st (st.getD i []) _ i hv

/-- Witness for C4: a shared buffer `[1, 2]` at address 0, held by `a` and its
clone; writing `5` at slot 0 through `a`'s `make_mut` slice leaves the clone's
observable content unchanged. -/
theorem c4_witness :
    HArray.as_slice
        (writeSlice ((HArray.Rc 0).make_mut [(HArray.Rc (T := Nat) 0).clone]
            [[1, 2]]).2.2 0 5
          ((HArray.Rc 0).make_mut [(HArray.Rc (T := Nat) 0).clone] [[1, 2]]).1
          ((HArray.Rc 0).make_mut [(HArray.Rc (T := Nat) 0).clone]
            [[1, 2]]).2.1).2
        (HArray.Rc 0).clone =
      HArray.as_slice [[1, 2]] (HArray.Rc 0).clone :=
  c4_make_mut_isolates_clones Nat [[1, 2]] (HArray.Rc 0) 0 5
    (by unfold HArray.valid; decide)

/-! ### C5: the non-cloning mutable accessor -/

/-- C5: `get_mut` returns `None` exactly when the variant is `Static` or the
variant is `Rc` with another live reference; it returns `Some` (an in-place
mutable view) exactly for the `Rc` variant with reference count 1 and for the
`Single` variant.  In particular, for a shared `Rc` array `a` at address `i`
with a live clone (reference count 2), `get_mut` on `a` returns `None`; after
the clone is dropped the same call succeeds and mutates in place: the handle
keeps address `i`, the store gains no buffer, and the buffer at `i` carries
the write. -/
theorem c5_get_mut_requires_exclusivity (T : Type) (st : List (List T))
    (others : List (HArray T)) (h : HArray T) (i j : Nat) (v : T)
    (hi : i < st.length) :
    (h.get_mut_write others st j v = none ↔
      (∃ s, h = HArray.Static s) ∨ ∃ k, h = HArray.Rc k ∧ rcCount k others ≠ 0) ∧
    ((h.get_mut_write others st j v).isSome = true ↔
      (∃ x, h = HArray.Single x) ∨ ∃ k, h = HArray.Rc k ∧ rcCount k others = 0) ∧
    ((HArray.Rc i).get_mut_write [HArray.Rc (T := T) i] st j v = none) ∧
    ((HArray.Rc i).get_mut_write ([] : List (HArray T)) st j v =
        some (HArray.Rc i, st.set i ((st.getD i []).set j v)) ∧
      (st.set i ((st.getD i []).set j v)).length = st.length ∧
      HArray.as_slice (st.set i ((st.getD i []).set j v)) (HArray.Rc i) =
        (st.getD i []).set j v) := by
  refine ⟨?_, ?_, ?_, ?_, ?_, ?_⟩
  · cases h with
    | Static s => simp [HArray.get_mut_write]
    | Single x => simp [HArray.get_mut_write]
    | Rc k =>
      by_cases hc : rcCount k others = 0 <;>
        simp [HArray.get_mut_write, hc]
  · cases h with
    | Static s => simp [HArray.get_mut_write]
    | Single x => simp [HArray.get_mut_write]
    | Rc k =>
      by_cases hc : rcCount k others = 0 <;>
        simp [HArray.get_mut_write, hc]
  · have hcount : rcCount i [HArray.Rc (T := T) i] ≠ 0 := by
      simp [rcCount, List.countP_cons, List.countP_nil]
    simp [HArray.get_mut_write, hcount]
  · simp [HArray.get_mut_write, rcCount, List.countP_nil]
  · exact List.length_set st i _ ▸ rfl
  · show (st.set i ((st.getD i []).set j v)).getD i [] = (st.getD i []).set j v
    rw [List.getD_eq_getElem?_getD, List.getElem?_set_eq_of_lt _ (by simpa using hi)]
    rfl

/-- Witness for C5: at the store `[[1, 2]]` holding one buffer at address 0,
with the clone alive `get_mut` fails, and once it is dropped the write of `9`
at slot 1 succeeds in place. -/
theorem c5_witness :
    (((HArray.Rc 0).get_mut_write ([HArray.Rc (T := Nat) 0]) [[1, 2]] 1 9 =
        none ↔
      (∃ s, HArray.Rc (T := Nat) 0 = HArray.Static s) ∨
        ∃ k, HArray.Rc (T := Nat) 0 = HArray.Rc k ∧
          rcCount k [HArray.Rc (T := Nat) 0] ≠ 0) ∧
    (((HArray.Rc 0).get_mut_write ([HArray.Rc (T := Nat) 0]) [[1, 2]] 1
          9).isSome = true ↔
      (∃ x, HArray.Rc (T := Nat) 0 = HArray.Single x) ∨
        ∃ k, HArray.Rc (T := Nat) 0 = HArray.Rc k ∧
          rcCount k [HArray.Rc (T := Nat) 0] = 0) ∧
    ((HArray.Rc 0).get_mut_write [HArray.Rc (T := Nat) 0] [[1, 2]] 1 9 =
      none) ∧
    ((HArray.Rc 0).get_mut_write ([] : List (HArray Nat)) [[1, 2]] 1 9 =
        some (HArray.Rc 0, [[1, 2]].set 0 (([[1, 2]].getD 0 []).set 1 9)) ∧
      ([[1, 2]].set 0 (([[1, 2]].getD 0 []).set 1 9)).length =
        [[1, 2]].length ∧
      HArray.as_slice ([[1, 2]].set 0 (([[1, 2]].getD 0 []).set 1 9))
          (HArray.Rc 0) =
        ([[1, 2]].getD 0 []).set 1 9)) :=
  c5_get_mut_requires_exclusivity Nat [[1, 2]] [HArray.Rc 0] (HArray.Rc 0) 0 1 9
    (by decide)

/-! ### C6: structural edits (modelled from the spec)

The snapshot under src/ has no structural edit operations on `IArray` (its
doc comment even says direct modification is not possible); the spec
describes them, so they are modelled here from the spec's words. -/

/-- Modelled from the spec: the structural edit `insert` of the sequence
container, missing from src/ — "rebuild a new `Shared` buffer consisting of
the unaffected head, the edit, and the unaffected tail, then replace `self`'s
variant with that buffer", where an index outside `0..=length` is a fatal
precondition violation (`none`), never clamped. -/
def IArray.insert {T : Type} (a : IArray T) (index : Nat) (x : T) :
    Option (IArray T) :=
  if index ≤ a.len then
    some (IArray.Rc (a.as_slice.take index ++ x :: a.as_slice.drop index))
  else none

/-- Modelled from the spec: the structural edit `insert_many`, missing from
src/ — like `insert` but splicing a whole sequence of new elements between
the unaffected head and tail. -/
def IArray.insert_many {T : Type} (a : IArray T) (index : Nat) (xs : List T) :
    Option (IArray T) :=
  if index ≤ a.len then
    some (IArray.Rc (a.as_slice.take index ++ xs ++ a.as_slice.drop index))
  else none

/-- Modelled from the spec: the structural edit `remove`, missing from src/ —
rebuild a `Shared` buffer from the head before the index and the tail after
it; an index outside the current bounds is a fatal precondition violation. -/
def IArray.remove {T : Type} (a : IArray T) (index : Nat) : Option (IArray T) :=
  if index < a.len then
    some (IArray.Rc (a.as_slice.take index ++ a.as_slice.drop (index + 1)))
  else none

/-- Modelled from the spec: the structural edit `remove_range`, missing from
src/ — drop the half-open index range `[start, stop)`, rebuilding a `Shared`
buffer from the head before `start` and the tail from `stop` on; a range
outside the current bounds is a fatal precondition violation. -/
def IArray.remove_range {T : Type} (a : IArray T) (start stop : Nat) :
    Option (IArray T) :=
  if start ≤ stop ∧ stop ≤ a.len then
    some (IArray.Rc (a.as_slice.take start ++ a.as_slice.drop stop))
  else none

/-- Modelled from the spec: the structural edit `push`, missing from src/ —
rebuild a `Shared` buffer from the whole sequence followed by the new
element (no precondition). -/
def IArray.push {T : Type} (a : IArray T) (x : T) : IArray T :=
  IArray.Rc (a.as_slice ++ [x])

/-- Modelled from the spec: the structural edit `extend`, missing from src/ —
rebuild a `Shared` buffer from the whole sequence followed by the new
elements (no precondition). -/
def IArray.extend {T : Type} (a : IArray T) (xs : List T) : IArray T :=
  IArray.Rc (a.as_slice ++ xs)

/-- C6: the structural edits `insert`, `insert_many`, `remove`,
`remove_range`, `push` and `extend` each rebuild a new `Shared` (`Rc`) buffer
from the unaffected head, the edit, and the unaffected tail; an insertion
index outside `0..=len` or a removal index/range outside the current bounds
is a fatal precondition violation (`none`) — never silently clamped or
ignored.  In particular, inserting `[3,4,5]` at index 2 into `[1,2,6]` yields
`[1,2,3,4,5,6]`, and removing the half-open range `[2,4)` from
`[1,2,10,20,3]` yields `[1,2,3]`. -/
theorem c6_structural_edits :
    (∀ (T : Type) (a : IArray T) (i : Nat) (x : T), i ≤ a.len →
      a.insert i x =
        some (IArray.Rc (a.as_slice.take i ++ x :: a.as_slice.drop i))) ∧
    (∀ (T : Type) (a : IArray T) (i : Nat) (x : T), a.len < i →
      a.insert i x = none) ∧
    (∀ (T : Type) (a : IArray T) (i : Nat) (xs : List T), i ≤ a.len →
      a.insert_many i xs =
        some (IArray.Rc (a.as_slice.take i ++ xs ++ a.as_slice.drop i))) ∧
    (∀ (T : Type) (a : IArray T) (i : Nat) (xs : List T), a.len < i →
      a.insert_many i xs = none) ∧
    (∀ (T : Type) (a : IArray T) (i : Nat), i < a.len →
      a.remove i =
        some (IArray.Rc (a.as_slice.take i ++ a.as_slice.drop (i + 1)))) ∧
    (∀ (T : Type) (a : IArray T) (i : Nat), a.len ≤ i → a.remove i = none) ∧
    (∀ (T : Type) (a : IArray T) (s e : Nat), s ≤ e → e ≤ a.len →
      a.remove_range s e =
        some (IArray.Rc (a.as_slice.take s ++ a.as_slice.drop e))) ∧
    (∀ (T : Type) (a : IArray T) (s e : Nat), ¬ (s ≤ e ∧ e ≤ a.len) →
      a.remove_range s e = none) ∧
    (∀ (T : Type) (a : IArray T) (x : T),
      a.push x = IArray.Rc (a.as_slice ++ [x])) ∧
    (∀ (T : Type) (a : IArray T) (xs : List T),
      a.extend xs = IArray.Rc (a.as_slice ++ xs)) ∧
    ((IArray.Static [1, 2, 6]).insert_many 2 [3, 4, 5] =
      some (IArray.Rc [1, 2, 3, 4, 5, 6])) ∧
    ((IArray.Static [1, 2, 10, 20, 3]).remove_range 2 4 =
      some (IArray.Rc [1, 2, 3])) := by
  refine ⟨?_, ?_, ?_, ?_, ?_, ?_, ?_, ?_, ?_, ?_, by decide, by decide⟩
  · intro T a i x hle
    simp [IArray.insert, hle]
  · intro T a i x hlt
    simp [IArray.insert, Nat.not_le.mpr hlt]
  · intro T a i xs hle
    simp [IArray.insert_many, hle]
  · intro T a i xs hlt
    simp [IArray.insert_many, Nat.not_le.mpr hlt]
  · intro T a i hlt
    simp [IArray.remove, hlt]
  · intro T a i hle
    simp [IArray.remove, Nat.not_lt.mpr hle]
  · intro T a s e hse hel
    simp [IArray.remove_range, hse, hel]
  · intro T a s e hne
    simp only [IArray.remove_range, if_neg hne]
  · intro T a x
    rfl
  · intro T a xs
    rfl

/-! ### C7: map order and lookup -/

/-- The pair sequence of the map-order-and-lookup example. -/
def c7pairs : List (String × Nat) := [("foo", 1), ("bar", 2), ("baz", 3)]

theorem entries_absent {K V : Type} [DecidableEq K] (key : K)
    (l : List (K × V)) (h : l.any (fun p => decide (p.1 = key)) = false) :
    lookupEntries key l = none ∧
    l.find? (fun p => decide (p.1 = key)) = none ∧
    ∀ n, IMap.findFull key l n = none := by
  induction l with
  | nil => exact ⟨rfl, rfl, fun n => rfl⟩
  | cons p rest ih =>
    simp only [List.any_cons, Bool.or_eq_false_iff] at h
    have hp : ¬ (p.1 = key) := by simpa using h.1
    obtain ⟨h1, h2, h3⟩ := ih h.2
    refine ⟨?_, ?_, fun n => ?_⟩
    · simp [lookupEntries, hp, h1]
    · simp [List.find?, hp, h2]
    · simp [IMap.findFull, hp, h3]

/-- C7: for an `IMap` collected from `[(foo,1),(bar,2),(baz,3)]`, full
iteration yields exactly those pairs in that order, `get_index 1` returns
`(bar, 2)`, and `get` of the absent key `"qux"` returns `None` — and every
lookup operation (`get`, `get_key_value`, `get_full`, `get_index`,
`get_index_of`, `contains_key`, `last`) is total, signalling absence with
`None`/`false` on an absent key, on both the `Static` and `Rc` variants
(last conjunct: absence is signalled on any map whose keys all differ from
the probed key). -/
theorem c7_map_order_and_lookup :
    ((IMap.from_iter c7pairs).iterList = c7pairs ∧
      (IMap.Static c7pairs).iterList = c7pairs ∧
      (IMap.from_iter c7pairs).get_index 1 = some ("bar", 2) ∧
      (IMap.Static c7pairs).get_index 1 = some ("bar", 2) ∧
      (IMap.from_iter c7pairs).get "qux" = none ∧
      (IMap.Static c7pairs).get "qux" = none ∧
      (IMap.from_iter c7pairs).get "bar" = some 2 ∧
      (IMap.Static c7pairs).get "bar" = some 2 ∧
      (IMap.from_iter c7pairs).get_key_value "qux" = none ∧
      (IMap.Static c7pairs).get_key_value "qux" = none ∧
      (IMap.from_iter c7pairs).get_key_value "baz" = some ("baz", 3) ∧
      (IMap.from_iter c7pairs).get_full "qux" = none ∧
      (IMap.Static c7pairs).get_full "qux" = none ∧
      (IMap.from_iter c7pairs).get_full "baz" = some (2, "baz", 3) ∧
      (IMap.from_iter c7pairs).get_index 3 = none ∧
      (IMap.Static c7pairs).get_index 3 = none ∧
      (IMap.from_iter c7pairs).get_index_of "qux" = none ∧
      (IMap.Static c7pairs).get_index_of "qux" = none ∧
      (IMap.from_iter c7pairs).get_index_of "bar" = some 1 ∧
      (IMap.from_iter c7pairs).contains_key "qux" = false ∧
      (IMap.Static c7pairs).contains_key "qux" = false ∧
      (IMap.from_iter c7pairs).contains_key "foo" = true ∧
      (IMap.from_iter c7pairs).last = some ("baz", 3) ∧
      (IMap.Static c7pairs).last = some ("baz", 3)) ∧
    (∀ (K V : Type) [DecidableEq K] (m : IMap K V) (key : K),
      m.contains_key key = false →
        m.get key = none ∧ m.get_key_value key = none ∧
        m.get_full key = none ∧ m.get_index_of key = none) := by
  refine ⟨by decide, ?_⟩
  intro K V instK m key habs
  cases m with
  | Static a =>
    obtain ⟨h1, h2, h3⟩ := entries_absent key a habs
    exact ⟨h1, h2, h3 0, by simp [IMap.get_index_of, IMap.get_full, h3 0]⟩
  | Rc a =>
    obtain ⟨h1, h2, h3⟩ := entries_absent key a habs
    exact ⟨h1, h2, h3 0, by simp [IMap.get_index_of, IMap.get_full, h3 0]⟩

/-! ### C10: map construction with duplicate keys -/

/-- The keys of the input pair sequence in order of first occurrence,
skipping keys already `seen`. -/
def firstKeys {K : Type} [DecidableEq K] (seen : List K) : List K → List K
  | [] => []
  | k :: ks => if k ∈ seen then firstKeys seen ks else k :: firstKeys (k :: seen) ks

/-- The value bound to `key` by its last occurrence in the pair sequence. -/
def lastVal {K V : Type} [DecidableEq K] (key : K) : List (K × V) → Option V
  | [] => none
  | p :: rest =>
    match lastVal key rest with
    | some v => some v
    | none => if p.1 = key then some p.2 else none

theorem firstKeys_congr {K : Type} [DecidableEq K] (ks : List K) :
    ∀ seen1 seen2 : List K, (∀ x, x ∈ seen1 ↔ x ∈ seen2) →
      firstKeys seen1 ks = firstKeys seen2 ks := by
  induction ks with
  | nil => intro seen1 seen2 h; rfl
  | cons k ks ih =>
    intro seen1 seen2 h
    by_cases hk : k ∈ seen1
    · rw [firstKeys, firstKeys, if_pos hk, if_pos ((h k).mp hk)]
      exact ih seen1 seen2 h
    · rw [firstKeys, firstKeys, if_neg hk, if_neg (fun c => hk ((h k).mpr c))]
      refine congrArg (k :: ·) (ih (k :: seen1) (k :: seen2) ?_)
      intro x
      simp only [List.mem_cons, h x]

theorem map_fst_replace {K V : Type} [DecidableEq K] (m : List (K × V))
    (k' : K) (v' : V) :
    (m.map (fun p => if p.1 = k' then (p.1, v') else p)).map Prod.fst =
      m.map Prod.fst := by
  induction m with
  | nil => rfl
  | cons p rest ih =>
    by_cases hp : p.1 = k' <;> simp [hp, ih]

theorem keys_insertEntry {K V : Type} [DecidableEq K] (m : List (K × V))
    (kv : K × V) :
    (insertEntry m kv).map Prod.fst =
      if kv.1 ∈ m.map Prod.fst then m.map Prod.fst
      else m.map Prod.fst ++ [kv.1] := by
  unfold insertEntry
  by_cases hm : kv.1 ∈ m.map Prod.fst
  · rw [if_pos (List.elem_eq_true_of_mem hm), if_pos hm, map_fst_replace]
  · rw [if_neg (fun c => hm (List.mem_of_elem_eq_true c)), if_neg hm]
    simp

theorem keys_foldl_insertEntry {K V : Type} [DecidableEq K]
    (ps : List (K × V)) :
    ∀ m : List (K × V),
      (ps.foldl insertEntry m).map Prod.fst =
        m.map Prod.fst ++ firstKeys (m.map Prod.fst) (ps.map Prod.fst) := by
  induction ps with
  | nil => intro m; simp [firstKeys]
  | cons kv rest ih =>
    intro m
    rw [List.foldl_cons, ih (insertEntry m kv), keys_insertEntry]
    by_cases hk : kv.1 ∈ m.map Prod.fst
    · rw [if_pos hk]
      simp only [List.map_cons, firstKeys, if_pos hk]
    · rw [if_neg hk]
      simp only [List.map_cons, firstKeys, if_neg hk]
      rw [firstKeys_congr (rest.map Prod.fst) (m.map Prod.fst ++ [kv.1])
        (kv.1 :: m.map Prod.fst) (by intro x; simp [or_comm])]
      simp

theorem lookup_map_replace_ne {K V : Type} [DecidableEq K] (m : List (K × V))
    (k' k : K) (v' : V) (h : ¬ (k' = k)) :
    lookupEntries k (m.map (fun p => if p.1 = k' then (p.1, v') else p)) =
      lookupEntries k m := by
  induction m with
  | nil => rfl
  | cons p rest ih =>
    have hkk : ¬ (k = k') := fun c => h c.symm
    by_cases hp : p.1 = k'
    · have hnk : ¬ (p.1 = k) := fun c => h (hp ▸ c)
      simp [lookupEntries, hp, hnk, h, hkk, ih]
    · by_cases hpk : p.1 = k <;> simp [lookupEntries, hp, hpk, h, hkk, ih]

theorem lookup_map_replace_eq {K V : Type} [DecidableEq K] (m : List (K × V))
    (k : K) (v' : V) (hmem : k ∈ m.map Prod.fst) :
    lookupEntries k (m.map (fun p => if p.1 = k then (p.1, v') else p)) =
      some v' := by
  induction m with
  | nil => simp at hmem
  | cons p rest ih =>
    by_cases hp : p.1 = k
    · simp [lookupEntries, hp]
    · simp only [List.map_cons, List.mem_cons] at hmem
      have : k ∈ rest.map Prod.fst := hmem.resolve_left (fun c => hp c.symm)
      simp [lookupEntries, hp, ih this]

theorem lookup_append_single {K V : Type} [DecidableEq K] (m : List (K × V))
    (kv : K × V) (k : K) :
    lookupEntries k (m ++ [kv]) =
      match lookupEntries k m with
      | some v => some v
      | none => if kv.1 = k then some kv.2 else none := by
  induction m with
  | nil => rfl
  | cons p rest ih =>
    by_cases hp : p.1 = k <;> simp [lookupEntries, hp, ih]

theorem lookup_not_mem_keys {K V : Type} [DecidableEq K] (m : List (K × V))
    (k : K) (h : ¬ k ∈ m.map Prod.fst) : lookupEntries k m = none := by
  induction m with
  | nil => rfl
  | cons p rest ih =>
    simp only [List.map_cons, List.mem_cons] at h
    have hp : ¬ (p.1 = k) := fun c => h (Or.inl c.symm)
    simp [lookupEntries, hp, ih (fun c => h (Or.inr c))]

theorem lookup_insertEntry {K V : Type} [DecidableEq K] (m : List (K × V))
    (kv : K × V) (k : K) :
    lookupEntries k (insertEntry m kv) =
      if kv.1 = k then some kv.2 else lookupEntries k m := by
  unfold insertEntry
  by_cases hm : kv.1 ∈ m.map Prod.fst
  · rw [if_pos (List.elem_eq_true_of_mem hm)]
    by_cases hk : kv.1 = k
    · subst hk
      rw [if_pos rfl, lookup_map_replace_eq m kv.1 kv.2 hm]
    · rw [if_neg hk, lookup_map_replace_ne m kv.1 k kv.2 hk]
  · rw [if_neg (fun c => hm (List.mem_of_elem_eq_true c)), lookup_append_single]
    by_cases hk : kv.1 = k
    · subst hk
      rw [lookup_not_mem_keys m kv.1 hm]
    · by_cases hmk : k ∈ m.map Prod.fst
      · obtain ⟨v, hv⟩ : ∃ v, lookupEntries k m = some v := by
          clear hm
          induction m with
          | nil => simp at hmk
          | cons p rest ih =>
            by_cases hp : p.1 = k
            · exact ⟨p.2, by simp [lookupEntries, hp]⟩
            · simp only [List.map_cons, List.mem_cons] at hmk
              obtain ⟨v, hv⟩ := ih (hmk.resolve_left (fun c => hp c.symm))
              exact ⟨v, by simp [lookupEntries, hp, hv]⟩
        simp [hv, hk]
      · rw [lookup_not_mem_keys m k hmk]

theorem lookup_foldl_insertEntry {K V : Type} [DecidableEq K]
    (ps : List (K × V)) (k : K) :
    ∀ m : List (K × V),
      lookupEntries k (ps.foldl insertEntry m) =
        match lastVal k ps with
        | some v => some v
        | none => lookupEntries k m := by
  induction ps with
  | nil => intro m; rfl
  | cons kv rest ih =>
    intro m
    rw [List.foldl_cons, ih (insertEntry m kv)]
    show _ = (match lastVal k (kv :: rest) with
      | some v => some v
      | none => lookupEntries k m)
    rw [show lastVal k (kv :: rest) = (match lastVal k rest with
      | some v => some v
      | none => if kv.1 = k then some kv.2 else none) from rfl]
    cases hrest : lastVal k rest with
    | some v => rfl
    | none =>
      rw [lookup_insertEntry]
      by_cases hk : kv.1 = k <;> simp [hk]

theorem firstKeys_nodup_and_fresh {K : Type} [DecidableEq K] (ks : List K) :
    ∀ seen : List K,
      (firstKeys seen ks).Nodup ∧ ∀ x ∈ firstKeys seen ks, ¬ x ∈ seen := by
  induction ks with
  | nil => intro seen; simp [firstKeys]
  | cons k ks ih =>
    intro seen
    by_cases hk : k ∈ seen
    · rw [firstKeys, if_pos hk]
      exact ih seen
    · rw [firstKeys, if_neg hk]
      obtain ⟨hnd, hfresh⟩ := ih (k :: seen)
      refine ⟨List.nodup_cons.mpr ⟨fun c => hfresh k c (by simp), hnd⟩, ?_⟩
      intro x hx
      rcases List.mem_cons.mp hx with hx | hx
      · exact hx ▸ hk
      · exact fun c => hfresh x hx (by simp [c])

/-- C10: building an `IMap` via `from_iter` from a pair sequence that may
contain duplicate keys: the result is always the `Rc` (`Shared`) variant and
never `Static`; its key sequence is exactly the input keys in order of first
occurrence with duplicates removed (so each key appears exactly once, at the
position its first occurrence earns it); and every key is bound to the value
of its last occurrence in the input. -/
theorem c10_from_iter_dedups_keys (K V : Type) [DecidableEq K]
    (pairs : List (K × V)) :
    IMap.from_iter pairs = IMap.Rc (mkIndexMap pairs) ∧
    (∀ s : List (K × V), IMap.from_iter pairs ≠ IMap.Static s) ∧
    (mkIndexMap pairs).map Prod.fst = firstKeys [] (pairs.map Prod.fst) ∧
    ((mkIndexMap pairs).map Prod.fst).Nodup ∧
    ∀ k : K, lookupEntries k (mkIndexMap pairs) = lastVal k pairs := by
  refine ⟨rfl, fun s h => by simp [IMap.from_iter] at h, ?_, ?_, ?_⟩
  · rw [mkIndexMap, keys_foldl_insertEntry pairs []]
    rfl
  · rw [mkIndexMap, keys_foldl_insertEntry pairs []]
    simpa using (firstKeys_nodup_and_fresh (pairs.map Prod.fst) []).1
  · intro k
    rw [mkIndexMap, lookup_foldl_insertEntry pairs k []]
    cases lastVal k pairs <;> rfl

/-! ### C9: text container equality and ordering -/

/-- Embedding of `IString` (src/string.rs lines 14-20): a static string slice
or a reference-counted string slice, both carried as their character
sequence. -/
inductive IString where
  | Static : List Char → IString
  | Rc : List Char → IString
deriving DecidableEq

/-- `IString::as_str` (src/string.rs lines 35-40): the contents, independent
of the variant; every comparison overload borrows through this. -/
def IString.as_str : IString → List Char
  | .Static s => s
  | .Rc s => s

/-- Rust `str` equality: byte-wise, which on valid UTF-8 coincides with
character-wise equality. -/
def strEq (a b : List Char) : Bool := a == b

/-- Rust `str`/`[u8]` comparison (`Ord for str`): byte-wise lexicographic,
which on valid UTF-8 coincides with lexicographic comparison of the
character scalar values. -/
def strCmp : List Char → List Char → Ordering
  | [], [] => .eq
  | [], _ :: _ => .lt
  | _ :: _, [] => .gt
  | x :: xs, y :: ys =>
    if x < y then .lt
    else if y < x then .gt
    else strCmp xs ys

/-- `PartialEq::<IString, IString>` via `impl_cmp_as_str!` (src/string.rs
line 133): borrow both sides as `str` and compare. -/
def IString.beq (a b : IString) : Bool := strEq a.as_str b.as_str

/-- The `PartialEq` overloads of `IString` against `str`, `&str`, `String`
and `&String` (src/string.rs lines 134-141): all four `as_ref` to the same
text, so they collapse to this one embedded function. -/
def IString.beq_text (a : IString) (s : List Char) : Bool := strEq a.as_str s

/-- The symmetric `PartialEq` overloads of text against `IString`
(src/string.rs lines 135-141). -/
def text_beq_istring (s : List Char) (a : IString) : Bool := strEq s a.as_str

/-- `Ord for IString` (src/string.rs lines 143-147): borrow both sides as
`str` and compare. -/
def IString.cmp (a b : IString) : Ordering := strCmp a.as_str b.as_str

/-- `PartialOrd for IString` (src/string.rs lines 151-155): defined from
`Ord::cmp` to keep the two consistent. -/
def IString.partial_cmp (a b : IString) : Option Ordering := some (a.cmp b)

/-- The `PartialOrd` overloads of `IString` against `str`, `&str`, `String`
and `&String` (src/string.rs lines 157-164): all four `as_ref` to the same
text. -/
def IString.partial_cmp_text (a : IString) (s : List Char) : Option Ordering :=
  some (strCmp a.as_str s)

/-- The symmetric `PartialOrd` overloads of text against `IString`
(src/string.rs lines 158-164). -/
def text_partial_cmp_istring (s : List Char) (a : IString) : Option Ordering :=
  some (strCmp s a.as_str)

theorem strCmp_eq_iff (a b : List Char) : strCmp a b = Ordering.eq ↔ a = b := by
  induction a generalizing b with
  | nil => cases b <;> simp [strCmp]
  | cons x xs ih =>
    cases b with
    | nil => simp [strCmp]
    | cons y ys =>
      rcases lt_trichotomy x y with h | h | h
      · have hne : x ≠ y := ne_of_lt h
        simp [strCmp, h, hne]
      · subst h
        simp [strCmp, lt_irrefl, ih]
      · have h1 : ¬ x < y := asymm h
        have hne : x ≠ y := (ne_of_lt h).symm
        simp [strCmp, h1, h, hne]

/-- C9: for every pair of `IString`s, in any mix of `Static` and `Rc`
variants, `==` holds iff the underlying string slices are equal, and
`Ord::cmp` is the string-slice comparison of the contents (with
`cmp = Equal` iff the contents are equal, so ordering is consistent with
equality); the comparisons of an `IString` against plain text (`str`,
`&str`, `String`, `&String` all borrow to the same text) agree with the
container-to-container comparison whichever variant holds that text, because
every overload delegates to the single borrow-as-str-and-compare
implementation; and concretely `"foo" < "foobar"` and `"bar" < "foo"` in
every variant combination. -/
theorem c9_string_cmp_delegates_to_str :
    (∀ a b : IString, IString.beq a b = true ↔ a.as_str = b.as_str) ∧
    (∀ a b : IString, IString.cmp a b = strCmp a.as_str b.as_str) ∧
    (∀ a b : IString, IString.cmp a b = Ordering.eq ↔ a.as_str = b.as_str) ∧
    (∀ a b : IString, IString.partial_cmp a b = some (IString.cmp a b)) ∧
    (∀ (a : IString) (s : List Char),
      IString.beq_text a s = IString.beq a (IString.Static s) ∧
      IString.beq_text a s = IString.beq a (IString.Rc s) ∧
      text_beq_istring s a = IString.beq (IString.Static s) a ∧
      text_beq_istring s a = IString.beq (IString.Rc s) a ∧
      IString.partial_cmp_text a s = IString.partial_cmp a (IString.Static s) ∧
      IString.partial_cmp_text a s = IString.partial_cmp a (IString.Rc s) ∧
      text_partial_cmp_istring s a = IString.partial_cmp (IString.Static s) a ∧
      text_partial_cmp_istring s a = IString.partial_cmp (IString.Rc s) a) ∧
    (IString.cmp (IString.Static "foo".data) (IString.Static "foobar".data) =
        Ordering.lt ∧
      IString.cmp (IString.Static "foo".data) (IString.Rc "foobar".data) =
        Ordering.lt ∧
      IString.cmp (IString.Rc "foo".data) (IString.Static "foobar".data) =
        Ordering.lt ∧
      IString.cmp (IString.Rc "foo".data) (IString.Rc "foobar".data) =
        Ordering.lt) ∧
    (IString.cmp (IString.Static "bar".data) (IString.Static "foo".data) =
        Ordering.lt ∧
      IString.cmp (IString.Rc "bar".data) (IString.Rc "foo".data) =
        Ordering.lt) ∧
    (IString.beq (IString.Static "foo".data) (IString.Rc "foo".data) = true ∧
      IString.beq (IString.Static "foo".data) (IString.Rc "bar".data) =
        false) := by
  refine ⟨?_, fun a b => rfl, ?_, fun a b => rfl, ?_,
    ⟨by decide, by decide, by decide, by decide⟩, ⟨by decide, by decide⟩,
    ⟨by decide, by decide⟩⟩
  · intro a b
    simp [IString.beq, strEq]
  · intro a b
    exact strCmp_eq_iff a.as_str b.as_str
  · intro a s
    exact ⟨rfl, rfl, rfl, rfl, rfl, rfl, rfl, rfl⟩

end ImplicitClone
